import Mathlib

/-!
Verification of `src/temp_edit_game_screen_block.py`, a nine-line script that
performs a guarded, literal find-and-replace edit on one file:

  1. read the file content as text;
  2. if the fixed target literal does not occur in the content, raise
     `SystemExit('target block not found')` (no write happens);
  3. otherwise replace the first occurrence of the target literal with the
     fixed replacement literal (`text.replace(target, replacement, 1)`);
  4. write the new content back to the same path.

The file content is modelled as a `List Char` (Python strings are sequences of
unicode code points).  `containsSub` embeds Python's `target in text`,
`replaceFirst` embeds `text.replace(target, replacement, 1)`, and `runEdit`
embeds the guard-then-replace control flow.  `runScript` additionally models
the process-level behaviour: a `SystemExit` whose argument is a string makes
the Python interpreter print that string to standard error and exit with
status 1, while falling off the end of the script exits with status 0 and
prints nothing.
-/

set_option maxHeartbeats 2000000
set_option maxRecDepth 100000

namespace TempEditGameScreenBlock

/-- Embedding of the `target` string literal from line 4 of the script.  The
Python source spells the line terminators with `\r\n` escapes, so the value
contains real CR LF pairs. -/
def targetStr : String := "                if (game.screenSize != size) \x7b\r\n                  game.setScreenSize(size);\r\n                \x7d\r\n\r\n                final halfWidth = size.width * 0.5;\r\n"

/-- Embedding of the `replacement` string literal from line 7 of the script.
In the Python source `\$` is not a recognised escape, so each `\$` stands for
a literal backslash followed by a dollar sign. -/
def replacementStr : String := "                if (game.screenSize != size) \x7b\r\n                  game.setScreenSize(size);\r\n                \x7d\r\n                if (kDebugMode) \x7b\r\n                  debugPrint(\r\n                    \x27state=\\$\x7bgame.gameState\x7d size=\\$\x7bsize.width.toStringAsFixed(1)\x7dx\\$\x7bsize.height.toStringAsFixed(1)\x7d\x27,\r\n                  );\r\n                \x7d\r\n\r\n                final halfWidth = size.width * 0.5;\r\n"

/-- The target literal as a character list. -/
def target : List Char := targetStr.toList

/-- The replacement literal as a character list. -/
def replacement : List Char := replacementStr.toList

/-- Embedding of Python's substring containment test `tgt in l`: true exactly
when `tgt` occurs contiguously somewhere in `l` (the empty string occurs in
every string). -/
def containsSub (tgt : List Char) : List Char → Bool
  | [] => tgt.isEmpty
  | c :: cs => tgt.isPrefixOf (c :: cs) || containsSub tgt cs

/-- Embedding of Python's `l.replace(tgt, rep, 1)`: scan left to right and
replace the first occurrence of `tgt` by `rep`, leaving everything else
untouched (for the empty target, Python inserts `rep` at the front). -/
def replaceFirst (tgt rep : List Char) : List Char → List Char
  | [] => if tgt.isEmpty then rep else []
  | c :: cs =>
    if tgt.isPrefixOf (c :: cs) then rep ++ (c :: cs).drop tgt.length
    else c :: replaceFirst tgt rep cs

/-- Outcome of the guarded edit: either the new file content, or the
precondition failure raised by `raise SystemExit('target block not found')`. -/
inductive EditResult where
  | ok : List Char → EditResult
  | preconditionNotMet : String → EditResult
deriving DecidableEq

/-- Embedding of the script's core control flow on an arbitrary file content:
guard (`if target not in text: raise SystemExit(...)`) then
`text.replace(target, replacement, 1)`. -/
def runEdit (tgt rep text : List Char) : EditResult :=
  if containsSub tgt text then EditResult.ok (replaceFirst tgt rep text)
  else EditResult.preconditionNotMet "target block not found"

/-- The content on storage after the run: the new content when the edit
succeeded and `path.write_text` ran, the unchanged original when the script
aborted before writing. -/
def finalContent (tgt rep text : List Char) : List Char :=
  match runEdit tgt rep text with
  | EditResult.ok t => t
  | EditResult.preconditionNotMet _ => text

/-- Observable process-level outcome of one run of the script. -/
structure ProcOutcome where
  exitCode : Nat
  stdOut : String
  stdErr : String
deriving DecidableEq

/-- Process-level model of the whole script, a function of the initial file
content only (the script takes no arguments and reads no environment): on
success the interpreter exits with status 0 and prints nothing; a
`SystemExit` with a string argument prints that string to standard error and
exits with status 1.  The second component is the file content on storage
after the run. -/
def runScript (text : List Char) : ProcOutcome × List Char :=
  if containsSub target text then
    (⟨0, "", ""⟩, replaceFirst target replacement text)
  else
    (⟨1, "", "target block not found"⟩, text)

/-- Length of the target literal, as written in the source. -/
theorem target_length : target.length = 167 := by decide

/-- Length of the replacement literal, as written in the source. -/
theorem replacement_length : replacement.length = 397 := by decide

/-- The target literal is a nonempty string. -/
theorem target_ne_nil : target ≠ [] := by decide

/-- The target literal has a positive length. -/
theorem target_len_pos : 0 < target.length := by decide

/-- The target literal is at most as long as the replacement literal. -/
theorem target_len_le : target.length ≤ replacement.length := by decide

/-- The target literal is strictly shorter than the replacement literal. -/
theorem target_len_lt : target.length < replacement.length := by decide

/-- Matching any pattern against the empty list reduces to the emptiness test
of the pattern. -/
theorem isPrefixOf_nil_right (tgt : List Char) : tgt.isPrefixOf [] = tgt.isEmpty := by
  cases tgt <;> rfl

/-- Characterisation of substring containment by occurrence positions:
`tgt` occurs in `l` exactly when it matches at some offset `i`. -/
theorem containsSub_iff (tgt l : List Char) :
    containsSub tgt l = true ↔ ∃ i, tgt.isPrefixOf (l.drop i) = true := by
  induction l with
  | nil => simp [containsSub, isPrefixOf_nil_right, List.drop_nil]
  | cons c cs ih =>
    simp only [containsSub, Bool.or_eq_true]
    constructor
    · rintro (h | h)
      · exact ⟨0, h⟩
      · obtain ⟨i, hi⟩ := ih.mp h
        exact ⟨i + 1, hi⟩
    · rintro ⟨i, hi⟩
      cases i with
      | zero => exact Or.inl hi
      | succ j => exact Or.inr (ih.mpr ⟨j, hi⟩)

/-- A nonempty pattern can only match at an offset inside the list. -/
theorem lt_length_of_isPrefixOf_drop (tgt l : List Char) (i : Nat)
    (htgt : tgt ≠ []) (h : tgt.isPrefixOf (l.drop i) = true) : i < l.length := by
  by_contra hge
  push_neg at hge
  rw [List.drop_eq_nil_of_le hge, isPrefixOf_nil_right] at h
  exact htgt (List.isEmpty_iff.mp h)

/-- Containment is preserved by extending the list on the left. -/
theorem containsSub_append_right (tgt b : List Char) (h : containsSub tgt b = true) :
    ∀ a : List Char, containsSub tgt (a ++ b) = true := by
  intro a
  induction a with
  | nil => simpa using h
  | cons c cs ih => simp [containsSub, ih]

/-- A list that starts with the pattern contains the pattern. -/
theorem containsSub_self_append (tgt suf : List Char) :
    containsSub tgt (tgt ++ suf) = true := by
  have hpref : tgt.isPrefixOf (tgt ++ suf) = true :=
    List.isPrefixOf_iff_prefix.mpr (List.prefix_append tgt suf)
  cases tgt with
  | nil =>
    induction suf with
    | nil => rfl
    | cons c cs ih => simp [containsSub]
  | cons t ts =>
    simp only [List.cons_append] at hpref ⊢
    simp [containsSub, hpref]

/-- When the pattern matches at the head, `replaceFirst` substitutes there and
keeps the remainder of the list. -/
theorem replaceFirst_of_match (tgt rep : List Char) (htgt : tgt ≠ []) :
    ∀ l : List Char, tgt.isPrefixOf l = true →
      replaceFirst tgt rep l = rep ++ l.drop tgt.length := by
  intro l h
  match l with
  | [] =>
    rw [isPrefixOf_nil_right] at h
    exact absurd (List.isEmpty_iff.mp h) htgt
  | c :: cs =>
    simp [replaceFirst, h]

/-- Replacing the first occurrence in `tgt ++ suf` yields `rep ++ suf`. -/
theorem replaceFirst_head (tgt rep suf : List Char) (htgt : tgt ≠ []) :
    replaceFirst tgt rep (tgt ++ suf) = rep ++ suf := by
  rw [replaceFirst_of_match tgt rep htgt (tgt ++ suf)
      (List.isPrefixOf_iff_prefix.mpr (List.prefix_append tgt suf)),
    List.drop_left]

/-- When the pattern does not match at the head, `replaceFirst` keeps the head
character and recurses on the tail. -/
theorem replaceFirst_cons_neg (tgt rep : List Char) (c : Char) (cs : List Char)
    (h : tgt.isPrefixOf (c :: cs) = false) :
    replaceFirst tgt rep (c :: cs) = c :: replaceFirst tgt rep cs := by
  simp only [replaceFirst, h]
  simp

/-- When no occurrence of the pattern starts strictly before position
`pre.length`, the first occurrence of `tgt` in `pre ++ tgt ++ suf` is the
exhibited one, and `replaceFirst` rewrites exactly it. -/
theorem replaceFirst_at (tgt rep suf : List Char) (htgt : tgt ≠ []) :
    ∀ pre : List Char,
      (∀ i, i < pre.length → ¬ tgt.isPrefixOf ((pre ++ tgt ++ suf).drop i) = true) →
      replaceFirst tgt rep (pre ++ tgt ++ suf) = pre ++ rep ++ suf := by
  intro pre
  induction pre with
  | nil =>
    intro _
    simpa using replaceFirst_head tgt rep suf htgt
  | cons p ps ih =>
    intro h
    have h0 : ¬ tgt.isPrefixOf (p :: (ps ++ tgt ++ suf)) = true := by
      have := h 0 (by simp)
      simpa using this
    have hb : tgt.isPrefixOf (p :: (ps ++ tgt ++ suf)) = false :=
      Bool.eq_false_iff.mpr h0
    have hsh : ∀ i, i < ps.length → ¬ tgt.isPrefixOf ((ps ++ tgt ++ suf).drop i) = true := by
      intro i hi
      have := h (i + 1) (by simpa using Nat.succ_lt_succ hi)
      simpa [List.drop_succ_cons] using this
    calc replaceFirst tgt rep ((p :: ps) ++ tgt ++ suf)
        = replaceFirst tgt rep (p :: (ps ++ tgt ++ suf)) := by simp
      _ = p :: replaceFirst tgt rep (ps ++ tgt ++ suf) :=
          replaceFirst_cons_neg tgt rep p (ps ++ tgt ++ suf) hb
      _ = p :: (ps ++ rep ++ suf) := by rw [ih hsh]
      _ = (p :: ps) ++ rep ++ suf := by simp

/-- A prefix of `a ++ b` that fits inside `a` is a prefix of `a`. -/
theorem prefix_of_append_left {α : Type _} {t a b : List α} (h : t <+: a ++ b)
    (hlen : t.length ≤ a.length) : t <+: a := by
  rw [List.prefix_iff_eq_take] at h ⊢
  rw [List.take_append_eq_append_take, Nat.sub_eq_zero_of_le hlen,
    List.take_zero, List.append_nil] at h
  exact h

/-- A prefix of `a ++ b` that is at least as long as `a` starts with `a` and
continues with a prefix of `b`. -/
theorem append_prefix_split {α : Type _} {t a b : List α} (h : t <+: a ++ b)
    (hlen : a.length ≤ t.length) :
    a <+: t ∧ t.drop a.length <+: b := by
  obtain ⟨c, hc⟩ := h
  constructor
  · rw [List.prefix_iff_eq_take]
    have htk := congrArg (List.take a.length) hc
    simp only [List.take_append_eq_append_take, Nat.sub_eq_zero_of_le hlen,
      Nat.sub_self, List.take_zero, List.append_nil, List.take_length] at htk
    exact htk.symm
  · have hdr := congrArg (List.drop a.length) hc
    simp only [List.drop_append_eq_append_drop, Nat.sub_eq_zero_of_le hlen,
      Nat.sub_self, List.drop_zero, List.drop_length, List.nil_append] at hdr
    exact ⟨c, hdr⟩

/-- Overlap fact checked on the literals: no nonempty proper suffix of the
target literal is a prefix of the replacement literal. -/
theorem target_suffix_not_prefix_of_replacement :
    ∀ k < target.length, 0 < k → (target.drop k).isPrefixOf replacement = false := by
  decide

/-- Overlap fact checked on the literals: the target literal matches at no
offset of the replacement literal. -/
theorem target_not_at_any_offset_of_replacement :
    ∀ j < replacement.length, target.isPrefixOf (replacement.drop j) = false := by
  decide

/-- Overlap fact checked on the literals: no nonempty proper prefix of the
target literal is a suffix of the replacement literal. -/
theorem target_prefix_not_suffix_of_replacement :
    ∀ j < replacement.length, replacement.length < j + target.length →
      (replacement.drop j).isPrefixOf target = false := by
  decide

/-- Overlap fact checked on the literals: the target literal matches inside
itself only at offset zero. -/
theorem target_self_overlap :
    ∀ i < target.length, target.isPrefixOf (target.drop i) = true → i = 0 := by
  decide

/-- Any list in which the pattern occurs splits as `a ++ tgt ++ b` around the
first occurrence, and `replaceFirst` rewrites exactly that occurrence. -/
theorem replaceFirst_decomp (tgt rep : List Char) (htgt : tgt ≠ []) :
    ∀ l : List Char, containsSub tgt l = true →
      ∃ a b, l = a ++ tgt ++ b ∧ replaceFirst tgt rep l = a ++ rep ++ b := by
  intro l
  induction l with
  | nil =>
    intro h
    rw [show containsSub tgt [] = tgt.isEmpty from rfl] at h
    exact absurd (List.isEmpty_iff.mp h) htgt
  | cons c cs ih =>
    intro h
    cases hb : tgt.isPrefixOf (c :: cs) with
    | true =>
      obtain ⟨b, hbb⟩ := List.isPrefixOf_iff_prefix.mp hb
      refine ⟨[], b, by simpa using hbb.symm, ?_⟩
      rw [replaceFirst_of_match tgt rep htgt (c :: cs) hb, ← hbb, List.drop_left]
      simp
    | false =>
      have h2 : containsSub tgt cs = true := by
        rw [show containsSub tgt (c :: cs) =
            (tgt.isPrefixOf (c :: cs) || containsSub tgt cs) from rfl, hb] at h
        simpa using h
      obtain ⟨a, b, hl, hr⟩ := ih h2
      refine ⟨c :: a, b, by simp [hl], ?_⟩
      rw [replaceFirst_cons_neg tgt rep c cs hb, hr]
      simp

/-- Central elimination lemma: when the target literal occurs in
`pre ++ target ++ suf` only at offset `pre.length`, the edited content
`pre ++ replacement ++ suf` contains no occurrence of the target literal at
all.  The case analysis on a hypothetical occurrence offset uses the overlap
facts about the two literals proved above. -/
theorem no_new_occurrence (pre suf : List Char)
    (h : ∀ i, target.isPrefixOf ((pre ++ target ++ suf).drop i) = true → i = pre.length) :
    containsSub target (pre ++ replacement ++ suf) = false := by
  cases hcase : containsSub target (pre ++ replacement ++ suf) with
  | false => rfl
  | true =>
    exfalso
    obtain ⟨i, hi⟩ := (containsSub_iff target _).mp hcase
    have hp : target <+: ((pre ++ replacement) ++ suf).drop i :=
      List.isPrefixOf_iff_prefix.mp hi
    rw [List.append_assoc, List.drop_append_eq_append_drop] at hp
    have hTR := target_len_le
    have hT := target_len_pos
    rcases Nat.lt_or_ge i pre.length with hlt | hge
    · rcases le_or_lt (i + target.length) pre.length with hle | hgt
      · -- the occurrence would lie entirely inside `pre`, hence also occur in
        -- the original content at offset `i < pre.length`
        have hta : target <+: pre.drop i := by
          apply prefix_of_append_left hp
          rw [List.length_drop]; omega
        have hocc : target.isPrefixOf ((pre ++ target ++ suf).drop i) = true := by
          rw [List.append_assoc, List.drop_append_eq_append_drop]
          exact List.isPrefixOf_iff_prefix.mpr (hta.trans (List.prefix_append _ _))
        have := h i hocc
        omega
      · -- the occurrence would straddle the boundary between `pre` and the
        -- replacement, making a nonempty proper suffix of the target a prefix
        -- of the replacement
        have hsplit := append_prefix_split hp (by rw [List.length_drop]; omega)
        have hdp := hsplit.2
        rw [List.length_drop, Nat.sub_eq_zero_of_le (Nat.le_of_lt hlt),
          List.drop_zero] at hdp
        have hfin : target.drop (pre.length - i) <+: replacement := by
          apply prefix_of_append_left hdp
          rw [List.length_drop]; omega
        have hK := target_suffix_not_prefix_of_replacement (pre.length - i)
          (by omega) (by omega)
        exact Bool.noConfusion
          (hK.symm.trans (List.isPrefixOf_iff_prefix.mpr hfin))
    · have hpre_nil : pre.drop i = [] := List.drop_eq_nil_of_le hge
      rw [hpre_nil, List.nil_append, List.drop_append_eq_append_drop] at hp
      rcases Nat.lt_or_ge (i - pre.length) replacement.length with hjlt | hjge
      · rw [Nat.sub_eq_zero_of_le (Nat.le_of_lt hjlt), List.drop_zero] at hp
        rcases le_or_lt (i - pre.length + target.length) replacement.length with hle | hgt
        · -- the occurrence would lie entirely inside the replacement
          have hta : target <+: replacement.drop (i - pre.length) := by
            apply prefix_of_append_left hp
            rw [List.length_drop]; omega
          have hK := target_not_at_any_offset_of_replacement (i - pre.length) hjlt
          exact Bool.noConfusion
            (hK.symm.trans (List.isPrefixOf_iff_prefix.mpr hta))
        · -- the occurrence would straddle the boundary between the replacement
          -- and `suf`, making a nonempty proper prefix of the target a suffix
          -- of the replacement
          have hsplit := append_prefix_split hp (by rw [List.length_drop]; omega)
          have hK := target_prefix_not_suffix_of_replacement (i - pre.length)
            hjlt (by omega)
          exact Bool.noConfusion
            (hK.symm.trans (List.isPrefixOf_iff_prefix.mpr hsplit.1))
      · -- the occurrence would lie entirely inside `suf`, hence also occur in
        -- the original content at an offset past `pre.length`
        have hrep_nil : replacement.drop (i - pre.length) = [] :=
          List.drop_eq_nil_of_le hjge
        rw [hrep_nil, List.nil_append] at hp
        have hocc : target.isPrefixOf ((pre ++ target ++ suf).drop
            (pre.length + target.length + (i - pre.length - replacement.length))) = true := by
          rw [List.append_assoc, List.drop_append_eq_append_drop,
            List.drop_append_eq_append_drop,
            List.drop_eq_nil_of_le
              (by omega : pre.length ≤ pre.length + target.length +
                (i - pre.length - replacement.length)),
            List.nil_append]
          have e2 : pre.length + target.length +
              (i - pre.length - replacement.length) - pre.length =
              target.length + (i - pre.length - replacement.length) := by omega
          rw [e2, List.drop_eq_nil_of_le
              (by omega : target.length ≤ target.length +
                (i - pre.length - replacement.length)),
            List.nil_append]
          have e4 : target.length + (i - pre.length - replacement.length) -
              target.length = i - pre.length - replacement.length := by omega
          rw [e4]
          exact List.isPrefixOf_iff_prefix.mpr hp
        have := h _ hocc
        omega

/-- The part shared by the two literals before the insertion point: the three
lines from `if (game.screenSize != size) {` through the closing brace. -/
def commonHead : List Char := ("                if (game.screenSize != size) \x7b\r\n                  game.setScreenSize(size);\r\n                \x7d\r\n").toList

/-- The block of five lines present in the replacement literal and absent from
the target literal: the `if (kDebugMode)` debug-print statement. -/
def insertedBlock : List Char := ("                if (kDebugMode) \x7b\r\n                  debugPrint(\r\n                    \x27state=\\$\x7bgame.gameState\x7d size=\\$\x7bsize.width.toStringAsFixed(1)\x7dx\\$\x7bsize.height.toStringAsFixed(1)\x7d\x27,\r\n                  );\r\n                \x7d\r\n").toList

/-- The part shared by the two literals after the insertion point: the blank
line and the `final halfWidth` line. -/
def commonTail : List Char := ("\r\n                final halfWidth = size.width * 0.5;\r\n").toList

/-- The target literal splits around the insertion point. -/
theorem target_decomp : target = commonHead ++ commonTail := by decide

/-- The replacement literal is the target literal with `insertedBlock` put in
at the insertion point. -/
theorem replacement_decomp :
    replacement = commonHead ++ insertedBlock ++ commonTail := by decide

/-- Every character of the target literal appears, in order, in the
replacement literal. -/
theorem target_sublist_replacement : target.Sublist replacement := by
  rw [target_decomp, replacement_decomp, List.append_assoc]
  exact List.Sublist.append (List.Sublist.refl commonHead)
    (List.sublist_append_right insertedBlock commonTail)

/-- Instance of the unique-occurrence hypothesis at the simplest input: in the
content consisting of the target literal alone, the target matches only at
offset zero. -/
theorem target_only_occurrence_zero :
    ∀ i, target.isPrefixOf ((([] : List Char) ++ target ++ []).drop i) = true →
      i = ([] : List Char).length := by
  intro i hi
  have hi2 : target.isPrefixOf (target.drop i) = true := by simpa using hi
  have hlt : i < target.length :=
    lt_length_of_isPrefixOf_drop target target i target_ne_nil hi2
  simpa using target_self_overlap i hlt hi2

/-- Under the unique-occurrence hypothesis, the guard passes and the run
rewrites the exhibited occurrence. -/
theorem runEdit_unique_aux (pre suf : List Char)
    (h : ∀ i, target.isPrefixOf ((pre ++ target ++ suf).drop i) = true → i = pre.length) :
    runEdit target replacement (pre ++ target ++ suf) =
      EditResult.ok (pre ++ replacement ++ suf) := by
  have hc : containsSub target (pre ++ target ++ suf) = true := by
    rw [List.append_assoc]
    exact containsSub_append_right target (target ++ suf)
      (containsSub_self_append target suf) pre
  have hfirst : ∀ i, i < pre.length →
      ¬ target.isPrefixOf ((pre ++ target ++ suf).drop i) = true := by
    intro i hi hocc
    have := h i hocc
    omega
  have hr := replaceFirst_at target replacement suf target_ne_nil pre hfirst
  unfold runEdit
  rw [hc, hr]
  exact if_pos rfl

/-- C1: for every file content that does not contain the target literal, the
operation signals failure (the `SystemExit` precondition abort) and performs
no mutation: the content on storage after the run equals the content before
the run. -/
theorem runEdit_absent_target_no_mutation (text : List Char)
    (h : containsSub target text = false) :
    runEdit target replacement text =
      EditResult.preconditionNotMet "target block not found" ∧
    finalContent target replacement text = text := by
  have h1 : runEdit target replacement text =
      EditResult.preconditionNotMet "target block not found" := by
    unfold runEdit
    rw [h]
    exact if_neg (by simp)
  refine ⟨h1, ?_⟩
  unfold finalContent
  rw [h1]

/-- Witness for C1 at the spec's concrete failure scenario `"A\nC\n"`. -/
theorem runEdit_absent_target_no_mutation_witness :
    runEdit target replacement ("A\nC\n".toList) =
      EditResult.preconditionNotMet "target block not found" ∧
    finalContent target replacement ("A\nC\n".toList) = "A\nC\n".toList :=
  runEdit_absent_target_no_mutation ("A\nC\n".toList) (by decide)

/-- C2: for every file content that contains the target literal exactly once,
written as `pre ++ target ++ suf` with the target occurring nowhere else, the
operation succeeds and writes `pre ++ replacement ++ suf`: the single
occurrence is replaced and every other character is unchanged. -/
theorem runEdit_unique_occurrence (pre suf : List Char)
    (h : ∀ i, target.isPrefixOf ((pre ++ target ++ suf).drop i) = true → i = pre.length) :
    runEdit target replacement (pre ++ target ++ suf) =
      EditResult.ok (pre ++ replacement ++ suf) :=
  runEdit_unique_aux pre suf h

/-- Witness for C2: content consisting of exactly the target literal. -/
theorem runEdit_unique_occurrence_witness :
    runEdit target replacement (([] : List Char) ++ target ++ []) =
      EditResult.ok (([] : List Char) ++ replacement ++ []) :=
  runEdit_unique_occurrence [] [] target_only_occurrence_zero

/-- C3: for every file content containing the target literal more than once,
written as `pre ++ target ++ suf` where the exhibited occurrence is the first
one and a later occurrence lies in `suf`, the operation replaces only the
first occurrence: the written content is `pre ++ replacement ++ suf`, and the
later occurrences, being inside the untouched `suf`, are still present. -/
theorem runEdit_replaces_only_first (pre suf : List Char)
    (hfirst : ∀ i, i < pre.length →
      ¬ target.isPrefixOf ((pre ++ target ++ suf).drop i) = true)
    (hlater : containsSub target suf = true) :
    runEdit target replacement (pre ++ target ++ suf) =
      EditResult.ok (pre ++ replacement ++ suf) ∧
    containsSub target (pre ++ replacement ++ suf) = true := by
  constructor
  · have hc : containsSub target (pre ++ target ++ suf) = true := by
      rw [List.append_assoc]
      exact containsSub_append_right target (target ++ suf)
        (containsSub_self_append target suf) pre
    have hr := replaceFirst_at target replacement suf target_ne_nil pre hfirst
    unfold runEdit
    rw [hc, hr]
    exact if_pos rfl
  · exact containsSub_append_right target suf hlater (pre ++ replacement)

/-- Witness for C3: content consisting of the target literal twice. -/
theorem runEdit_replaces_only_first_witness :
    runEdit target replacement (([] : List Char) ++ target ++ target) =
      EditResult.ok (([] : List Char) ++ replacement ++ target) ∧
    containsSub target (([] : List Char) ++ replacement ++ target) = true :=
  runEdit_replaces_only_first [] target
    (fun i hi => absurd hi (Nat.not_lt_zero i)) (by decide)

/-- C4, counterexample: the replacement literal does not have exactly three
more lines than the target literal (each line of both literals ends in CR LF,
so lines are counted by the newline characters). -/
theorem replacement_not_three_extra_lines :
    (replacement.count '\n' = target.count '\n' + 3) = False :=
  eq_false (by decide)

/-- C4, amended: the replacement literal equals the target literal with
exactly five additional lines inserted (the `if (kDebugMode)` debug-print
block); aside from those five inserted lines, the replacement literal
consists of the same lines as the target literal. -/
theorem replacement_five_extra_lines :
    target = commonHead ++ commonTail ∧
    replacement = commonHead ++ insertedBlock ++ commonTail ∧
    insertedBlock.count '\n' = 5 ∧
    replacement.count '\n' = target.count '\n' + 5 :=
  ⟨target_decomp, replacement_decomp, by decide, by decide⟩

/-- C5, counterexample: on the content `target ++ target` the operation
succeeds, yet its output still contains the target literal and a second run
passes the precondition check and applies the edit again. -/
theorem guard_passes_after_double_edit :
    runEdit target replacement (target ++ target) =
      EditResult.ok (replacement ++ target) ∧
    containsSub target (replacement ++ target) = true ∧
    runEdit target replacement (replacement ++ target) =
      EditResult.ok (replaceFirst target replacement (replacement ++ target)) := by
  have hcc : containsSub target (replacement ++ target) = true :=
    containsSub_append_right target target (by decide) replacement
  refine ⟨?_, hcc, ?_⟩
  · have h1 : containsSub target (target ++ target) = true :=
      containsSub_self_append target target
    have h2 := replaceFirst_head target replacement target target_ne_nil
    unfold runEdit
    rw [h1, h2]
    exact if_pos rfl
  · unfold runEdit
    rw [hcc]
    exact if_pos rfl

/-- C5, amended: for every file content that contains the target literal
exactly once, the operation succeeds, and running it a second time on its own
output fails the precondition check, so the edit is not applied twice. -/
theorem second_run_fails_on_unique_content (pre suf : List Char)
    (h : ∀ i, target.isPrefixOf ((pre ++ target ++ suf).drop i) = true → i = pre.length) :
    runEdit target replacement (pre ++ target ++ suf) =
      EditResult.ok (pre ++ replacement ++ suf) ∧
    runEdit target replacement (pre ++ replacement ++ suf) =
      EditResult.preconditionNotMet "target block not found" := by
  refine ⟨runEdit_unique_aux pre suf h, ?_⟩
  unfold runEdit
  rw [no_new_occurrence pre suf h]
  exact if_neg (by simp)

/-- Witness for the amended C5: content consisting of exactly the target
literal. -/
theorem second_run_fails_on_unique_content_witness :
    runEdit target replacement (([] : List Char) ++ target ++ []) =
      EditResult.ok (([] : List Char) ++ replacement ++ []) ∧
    runEdit target replacement (([] : List Char) ++ replacement ++ []) =
      EditResult.preconditionNotMet "target block not found" :=
  second_run_fails_on_unique_content [] [] target_only_occurrence_zero

/-- C6: the guarded replace-first operation applied to content `"A\nB\nC\n"`
with target `"B\n"` and replacement `"B\nX\n"` succeeds and produces exactly
`"A\nB\nX\nC\n"`. -/
theorem runEdit_concrete_scenario :
    runEdit ("B\n".toList) ("B\nX\n".toList) ("A\nB\nC\n".toList) =
      EditResult.ok ("A\nB\nX\nC\n".toList) := by decide

/-- C7: on success the process writes nothing to standard output and exits
with status 0; when the target literal is absent the process terminates with
a non-zero status and the diagnostic stating the precondition was not met. -/
theorem runScript_exit_behavior (text : List Char) :
    (containsSub target text = true →
      (runScript text).1.exitCode = 0 ∧ (runScript text).1.stdOut = "") ∧
    (containsSub target text = false →
      (runScript text).1.exitCode ≠ 0 ∧
      (runScript text).1.stdErr = "target block not found") := by
  constructor
  · intro h
    simp [runScript, h]
  · intro h
    simp [runScript, h]

/-- Witness for C7: a succeeding run on the target literal itself and a
failing run on `"A\nC\n"`. -/
theorem runScript_exit_behavior_witness :
    ((runScript target).1.exitCode = 0 ∧ (runScript target).1.stdOut = "") ∧
    ((runScript ("A\nC\n".toList)).1.exitCode ≠ 0 ∧
      (runScript ("A\nC\n".toList)).1.stdErr = "target block not found") :=
  ⟨(runScript_exit_behavior target).1 (by decide),
    (runScript_exit_behavior ("A\nC\n".toList)).2 (by decide)⟩

/-- C8: the operation is deterministic.  The process model is a function of
the initial file content alone (the script reads no arguments, environment or
other input), so two runs started on identical initial content produce the
identical process outcome, final content and success-or-failure result. -/
theorem script_deterministic (t1 t2 : List Char) (h : t1 = t2) :
    runScript t1 = runScript t2 ∧
    runEdit target replacement t1 = runEdit target replacement t2 := by
  subst h
  exact ⟨rfl, rfl⟩

/-- Witness for C8 at a concrete content. -/
theorem script_deterministic_witness :
    runScript ("A\n".toList) = runScript ("A\n".toList) ∧
    runEdit target replacement ("A\n".toList) =
      runEdit target replacement ("A\n".toList) :=
  script_deterministic ("A\n".toList) ("A\n".toList) rfl

/-- C9: the target literal is not a substring of the replacement literal, and
for every content containing the target literal exactly once (written as
`pre ++ target ++ suf` with no other occurrence) the operation's output
`pre ++ replacement ++ suf` contains zero occurrences of the target
literal. -/
theorem target_absent_from_output (pre suf : List Char)
    (h : ∀ i, target.isPrefixOf ((pre ++ target ++ suf).drop i) = true → i = pre.length) :
    containsSub target replacement = false ∧
    runEdit target replacement (pre ++ target ++ suf) =
      EditResult.ok (pre ++ replacement ++ suf) ∧
    containsSub target (pre ++ replacement ++ suf) = false :=
  ⟨by decide, runEdit_unique_aux pre suf h, no_new_occurrence pre suf h⟩

/-- Witness for C9: content consisting of exactly the target literal. -/
theorem target_absent_from_output_witness :
    containsSub target replacement = false ∧
    runEdit target replacement (([] : List Char) ++ target ++ []) =
      EditResult.ok (([] : List Char) ++ replacement ++ []) ∧
    containsSub target (([] : List Char) ++ replacement ++ []) = false :=
  target_absent_from_output [] [] target_only_occurrence_zero

/-- C10: the edit is a pure insertion.  Whenever the operation succeeds, the
written content is strictly longer than the original, its length is the
original length plus the constant `replacement.length - target.length`, and
every character of the original still appears in the written content in its
original order. -/
theorem runEdit_pure_insertion (text out : List Char)
    (h : runEdit target replacement text = EditResult.ok out) :
    out.length = text.length + (replacement.length - target.length) ∧
    text.length < out.length ∧ text.Sublist out := by
  have hc : containsSub target text = true := by
    cases hcc : containsSub target text with
    | true => rfl
    | false =>
      exfalso
      unfold runEdit at h
      rw [hcc, if_neg (by simp)] at h
      exact EditResult.noConfusion h
  obtain ⟨a, b, hl, hr⟩ := replaceFirst_decomp target replacement target_ne_nil text hc
  have hout : out = a ++ replacement ++ b := by
    unfold runEdit at h
    rw [hc] at h
    simp at h
    exact (hr.symm.trans h).symm
  subst hl
  subst hout
  have hle := target_len_le
  have hlt := target_len_lt
  refine ⟨?_, ?_, ?_⟩
  · simp only [List.length_append]
    omega
  · simp only [List.length_append]
    omega
  · exact List.Sublist.append
      (List.Sublist.append (List.Sublist.refl a) target_sublist_replacement)
      (List.Sublist.refl b)

/-- Witness for C10: the run on the target literal itself writes the
replacement literal. -/
theorem runEdit_pure_insertion_witness :
    replacement.length = target.length + (replacement.length - target.length) ∧
    target.length < replacement.length ∧ target.Sublist replacement :=
  runEdit_pure_insertion target replacement (by decide)

end TempEditGameScreenBlock
